import Mathlib

/-!
Verification development for the `miajio/nla` repository: the participle
dictionary cache (prefix tree, persisted store, learn-from-text filters) and
the badger storage-engine lifecycle manager (GC ticker, interval updates,
close handshake).

Go strings are modelled as their lists of Unicode codepoints; the Go byte
length of a string is recovered through the UTF-8 size of each codepoint.
Go's `map` type is modelled as an association list with in-place update.
External collaborators (the badger store, the GSE tokenizer, the JSON codec)
are modelled at their interfaces, as the spec directs: the store is a finite
key/value map, the tokenizer an oracle supplying the token list and a log of
`AddToken` calls, and the codec an identity (decoding a stored value yields
the entry that was encoded).
-/

set_option maxHeartbeats 1000000

namespace Nla

/-- A Go string, modelled as its list of Unicode codepoints. -/
abbrev GoStr := List Char

/-- `SplitString` from `pkg/participle/common.go`: splits a string into its
Unicode codepoints, each represented as a one-codepoint string. -/
def SplitString (s : GoStr) : List GoStr := s.map (fun c => [c])

/-- Go `len` applied to a string: the number of UTF-8 bytes. -/
def goLen (s : GoStr) : Nat := (s.map Char.utf8Size).sum

/-- `IsSpecialChar` from `pkg/participle/common.go`. The regular expression
of the P, S and Z Unicode general categories is applied with `MatchString`,
which looks for a match anywhere in the string, so a nonempty string matches
iff it contains at least one codepoint of those categories. `cls` decides
membership of a codepoint in P, S or Z. -/
def isSpecialChar (cls : Char → Bool) (s : GoStr) : Bool :=
  if s = [] then false else s.any cls

/-- Concrete classifier for the P, S and Z Unicode general categories, used
to evaluate concrete inputs. It agrees with the Unicode classification on
the ASCII range (space and the ASCII punctuation and symbol characters are
in P, S or Z; alphanumerics and control characters are not) and on CJK Han
letters, which are letters and hence outside P, S and Z. -/
def asciiPSZ (c : Char) : Bool :=
  let n := c.toNat
  decide ((0x20 ≤ n ∧ n ≤ 0x7E) ∧
    ¬ ((0x30 ≤ n ∧ n ≤ 0x39) ∨ (0x41 ≤ n ∧ n ≤ 0x5A) ∨ (0x61 ≤ n ∧ n ≤ 0x7A)))

/-- `DictEntry` from the participle package. `Frequency` is a `float64` the
dictionary code only stores and passes along, never computes with, so the
model is parametric in the frequency type. -/
structure DictEntry (Freq : Type) where
  Content : GoStr
  Frequency : Freq
  Pos : GoStr
deriving DecidableEq

/-- `TrieNode` from the participle package: children keyed by one-codepoint
strings, a terminal flag, and an optional entry. -/
inductive TrieNode (Freq : Type) : Type where
  | mk (Children : List (GoStr × TrieNode Freq)) (IsEnd : Bool)
      (Entry : Option (DictEntry Freq)) : TrieNode Freq

variable {Freq : Type}

/-- The `Children` field. -/
def TrieNode.Children : TrieNode Freq → List (GoStr × TrieNode Freq)
  | .mk cs _ _ => cs

/-- The `IsEnd` field. -/
def TrieNode.IsEnd : TrieNode Freq → Bool
  | .mk _ e _ => e

/-- The `Entry` field. -/
def TrieNode.Entry : TrieNode Freq → Option (DictEntry Freq)
  | .mk _ _ en => en

@[simp] theorem TrieNode.Children_mk (cs : List (GoStr × TrieNode Freq)) (e : Bool)
    (en : Option (DictEntry Freq)) : (TrieNode.mk cs e en).Children = cs := rfl

@[simp] theorem TrieNode.IsEnd_mk (cs : List (GoStr × TrieNode Freq)) (e : Bool)
    (en : Option (DictEntry Freq)) : (TrieNode.mk cs e en).IsEnd = e := rfl

@[simp] theorem TrieNode.Entry_mk (cs : List (GoStr × TrieNode Freq)) (e : Bool)
    (en : Option (DictEntry Freq)) : (TrieNode.mk cs e en).Entry = en := rfl

/-- `NewTrieNode`: no children, not terminal, no entry. -/
def NewTrieNode : TrieNode Freq := .mk [] false none

/-- Go map read `node.Children[char]`: the value stored at a key. -/
def lookupChild : List (GoStr × TrieNode Freq) → GoStr → Option (TrieNode Freq)
  | [], _ => none
  | (k, v) :: rest, key => if k = key then some v else lookupChild rest key

/-- Go map write `node.Children[char] = v`: replace the value at the key, or
append the pair when the key is absent. -/
def setChild : List (GoStr × TrieNode Freq) → GoStr → TrieNode Freq →
    List (GoStr × TrieNode Freq)
  | [], key, v => [(key, v)]
  | (k, w) :: rest, key, v =>
      if k = key then (key, v) :: rest else (k, w) :: setChild rest key v

/-- The trie-insertion loop shared verbatim by `insertIntoTrieAndDB` and
`loadDictionaryFromDB`: walk the key sequence from `node`, creating missing
children with `NewTrieNode`, then mark the final node terminal and store the
entry there. -/
def insertPath (node : TrieNode Freq) : List GoStr → DictEntry Freq → TrieNode Freq
  | [], entry => .mk node.Children true (some entry)
  | key :: keys, entry =>
      let child := (lookupChild node.Children key).getD NewTrieNode
      .mk (setChild node.Children key (insertPath child keys entry))
        node.IsEnd node.Entry

/-- Insertion of a content string: the loop above run on the codepoint
decomposition of the content. -/
def insertTrie (node : TrieNode Freq) (content : GoStr) (entry : DictEntry Freq) :
    TrieNode Freq :=
  insertPath node (SplitString content) entry

/-- The loop of `containsWord`: walk the key sequence, return `false` on a
missing child, else the final node's `IsEnd`. -/
def containsAux (node : TrieNode Freq) : List GoStr → Bool
  | [] => node.IsEnd
  | key :: keys =>
      match lookupChild node.Children key with
      | none => false
      | some child => containsAux child keys

/-- `containsWord` from the participle `Engine`: walk the codepoint
decomposition of `content` from the root. -/
def containsWord (root : TrieNode Freq) (content : GoStr) : Bool :=
  containsAux root (SplitString content)

/-- The node reached by walking a key sequence, if the full path exists. -/
def findNode (node : TrieNode Freq) : List GoStr → Option (TrieNode Freq)
  | [] => some node
  | key :: keys =>
      match lookupChild node.Children key with
      | none => none
      | some child => findNode child keys

/-- The entry stored at the end of a path (`none` when the path is missing). -/
def entryAt (root : TrieNode Freq) (path : List GoStr) : Option (DictEntry Freq) :=
  match findNode root path with
  | none => none
  | some n => n.Entry

/-- The terminal flag at the end of a path (`false` when the path is missing). -/
def endAt (root : TrieNode Freq) (path : List GoStr) : Bool :=
  match findNode root path with
  | none => false
  | some n => n.IsEnd

/-- The badger store contents, at the interface the dictionary uses: a
key/value map, each value the dictionary entry whose JSON encoding is
stored (decoding a stored value yields the entry that was encoded). -/
abbrev Store (Freq : Type) := List (GoStr × DictEntry Freq)

/-- Badger `Set`: overwrite the value at `key`, inserting the key when it is
absent. Keys of a badger store are unique, so replacing every pair whose key
matches models the map update. -/
def storeSet (s : Store Freq) (key : GoStr) (v : DictEntry Freq) : Store Freq :=
  if key ∈ s.map Prod.fst then
    s.map (fun p => if p.1 = key then (key, v) else p)
  else s ++ [(key, v)]

/-- Badger point read at a key. -/
def storeGet : Store Freq → GoStr → Option (DictEntry Freq)
  | [], _ => none
  | (k, v) :: rest, key => if k = key then some v else storeGet rest key

/-- `loadDictionaryFromDB`: iterate over every persisted key/value pair and
run the trie-insertion loop on the given root, keyed by the stored key, with
the entry decoded from the stored value. -/
def loadDictionaryFromDB (store : Store Freq) (root : TrieNode Freq) : TrieNode Freq :=
  store.foldl (fun t p => insertTrie t p.1 p.2) root

/-- A fresh bootstrap, as `New` performs it: `loadDictionaryFromDB` into a
fresh `NewTrieNode` root. -/
def bootstrapTrie (store : Store Freq) : TrieNode Freq :=
  loadDictionaryFromDB store NewTrieNode

/-- The state of the participle `Engine` together with its storage: the trie
root, the persisted store, and the log of `segmenter.AddToken` calls made so
far (the tokenizer is external; its state changes are recorded as the
arguments passed to it). -/
structure PEngine (Freq : Type) where
  root : TrieNode Freq
  store : Store Freq
  seg : List (GoStr × Freq × GoStr)

/-- The wrapping `AddWord` applies to an insertion error. -/
def wrapAddWordErr (e : GoStr) : GoStr := "save content to db fail: ".toList ++ e

/-- `insertIntoTrieAndDB`: mutate the trie first, then marshal and write to
the store. `setResult` is the outcome of the badger `Set` call (`none` means
success); a failed update transaction leaves the store unchanged, but the
trie has already been mutated on that path. -/
def insertIntoTrieAndDB (d : PEngine Freq) (content : GoStr) (entry : DictEntry Freq)
    (setResult : Option GoStr) : PEngine Freq × Option GoStr :=
  let root' := insertTrie d.root content entry
  match setResult with
  | none => ({ d with root := root', store := storeSet d.store content entry }, none)
  | some e => ({ d with root := root' }, some e)

/-- `AddWord`: build the entry from the arguments, insert into trie and
store, then update the tokenizer; a store failure is wrapped and returned to
the caller, skipping the tokenizer update. -/
def AddWord (d : PEngine Freq) (content : GoStr) (frequency : Freq) (pos : GoStr)
    (setResult : Option GoStr) : PEngine Freq × Option GoStr :=
  match insertIntoTrieAndDB d content ⟨content, frequency, pos⟩ setResult with
  | (d', some e) => (d', some (wrapAddWordErr e))
  | (d', none) => ({ d' with seg := d'.seg ++ [(content, frequency, pos)] }, none)

/-- The contents `LearnFromText` calls `AddWord` for, given the token list
the tokenizer returned for the text: a token is skipped when its Go byte
length is at most 1, or `IsSpecialChar` holds of it, or the trie already
contains it; otherwise `AddWord` runs (successfully here) with the default
frequency and the tag `nz`, mutating the trie before later tokens are
checked. `freq1000` models the literal `1000.0`. -/
def learnAddCalls (cls : Char → Bool) (freq1000 : Freq) :
    TrieNode Freq → List GoStr → List GoStr
  | _, [] => []
  | root, t :: ts =>
      if goLen t ≤ 1 || isSpecialChar cls t then learnAddCalls cls freq1000 root ts
      else if containsWord root t then learnAddCalls cls freq1000 root ts
      else t :: learnAddCalls cls freq1000
        (insertTrie root t ⟨t, freq1000, "nz".toList⟩) ts

/-- The lifecycle state of the badger `Engine`: whether `e.db` is still set,
the current GC interval, the interval of the running ticker (`none` once the
ticker is stopped), the recorded error, and whether `listenerClose` has
already consumed its one-shot `done` signal. Durations are in nanoseconds,
as in Go's `time.Duration`. -/
structure EngineState where
  dbOpen : Bool
  gcInterval : Int
  ticker : Option Int
  err : Option GoStr
  closeHandled : Bool
deriving DecidableEq

/-- The state right after `new`: default interval five minutes, both
listener goroutines started, ticker running at the default interval. -/
def initEngine : EngineState :=
  { dbOpen := true
    gcInterval := 5 * 60 * 1000000000
    ticker := some (5 * 60 * 1000000000)
    err := none
    closeHandled := false }

/-- Events of the lifecycle system: a firing of the GC ticker, a caller
invoking `SetGCInterval d`, and a caller invoking `Close` whose underlying
`db.Close()` returns `dbCloseErr`. -/
inductive Event where
  | tickFire : Event
  | setGCInterval (d : Int) : Event
  | closeReq (dbCloseErr : Option GoStr) : Event
deriving DecidableEq

/-- Observable actions: an invocation of `RunValueLogGC` (recording whether
the handle was still open at that point) and the acknowledgement sent on
`doneSuccessChain`. -/
inductive Obs where
  | gcRun (dbOpen : Bool) : Obs
  | ack : Obs
deriving DecidableEq

/-- One serialized step of the two listener goroutines.
A ticker firing is received by `listenerGC`, which invokes `RunValueLogGC`;
that loop never exits, so the case is enabled whenever the ticker runs.
`SetGCInterval` returns at once on a non-positive duration and otherwise
sends the new interval to `listenerGC`, whose `updateGcInterval` stores it,
stops the old ticker and starts a fresh one. A close request is received by
`listenerClose` only the first time (that goroutine then terminates): it
closes the db recording any error, clears the handle, stops the ticker, and
sends the acknowledgement. -/
def step (s : EngineState) : Event → EngineState × List Obs
  | .tickFire =>
      match s.ticker with
      | some _ => (s, [.gcRun s.dbOpen])
      | none => (s, [])
  | .setGCInterval d =>
      if d ≤ 0 then (s, [])
      else ({ s with gcInterval := d, ticker := some d }, [])
  | .closeReq e =>
      if s.closeHandled then (s, [])
      else
        let err' := match e with | some m => some m | none => s.err
        ({ s with dbOpen := false, err := err', ticker := none,
                  closeHandled := true }, [.ack])

/-- Run a sequence of events, accumulating the observations in order. -/
def run (s : EngineState) : List Event → EngineState × List Obs
  | [] => (s, [])
  | e :: es =>
      let p := step s e
      let q := run p.1 es
      (q.1, p.2 ++ q.2)

/-- The message of the dedicated close-timeout error. -/
def closeTimeoutMsg : GoStr := "badger engine close timeout".toList

/-- The value `Close()` returns: it sends the one shutdown request, handled
by `listenerClose` (one `step` with `closeReq`), then selects between the
acknowledgement and a fixed five-second timeout; on acknowledgement it
returns the recorded error, on timeout the dedicated timeout error.
`ackWithin5s` abstracts which branch of the select fires. -/
def CloseResult (s : EngineState) (dbCloseErr : Option GoStr) (ackWithin5s : Bool) :
    Option GoStr :=
  if ackWithin5s then ((step s (.closeReq dbCloseErr)).1).err
  else some closeTimeoutMsg

/-- Recognizer for `RunValueLogGC` observations. -/
def isGcRun : Obs → Bool
  | .gcRun _ => true
  | .ack => false

/-- Recognizer for a `SetGCInterval` event that passes the positivity check
and hence reaches the maintenance loop. -/
def isPosSet : Event → Bool
  | .setGCInterval d => decide (0 < d)
  | _ => false

/-- Recognizer for close requests. -/
def isCloseEv : Event → Bool
  | .closeReq _ => true
  | _ => false

/-- Whether an observation list contains no `RunValueLogGC` invocation after
the first acknowledgement. -/
def noGcAfterAck : List Obs → Bool
  | [] => true
  | .ack :: rest => rest.all (fun o => !isGcRun o)
  | _ :: rest => noGcAfterAck rest

/-- The node invariant: a node is terminal iff it holds an entry, at every
node of the tree. -/
inductive TrieInv : TrieNode Freq → Prop where
  | mk : ∀ (cs : List (GoStr × TrieNode Freq)) (e : Bool)
      (en : Option (DictEntry Freq)),
      (e = true ↔ en ≠ none) →
      (∀ p ∈ cs, TrieInv p.2) →
      TrieInv (.mk cs e en)

/-! Lemmas about the trie. -/

theorem containsAux_eq_endAt (t : TrieNode Freq) (p : List GoStr) :
    containsAux t p = endAt t p := by
  induction p generalizing t with
  | nil => cases t <;> rfl
  | cons k ks ih =>
      simp only [containsAux, endAt, findNode]
      cases h : lookupChild t.Children k with
      | none => rfl
      | some c => exact ih c

theorem containsWord_eq_endAt (t : TrieNode Freq) (c : GoStr) :
    containsWord t c = endAt t (SplitString c) :=
  containsAux_eq_endAt t (SplitString c)

theorem lookupChild_setChild_self (cs : List (GoStr × TrieNode Freq)) (k : GoStr)
    (v : TrieNode Freq) : lookupChild (setChild cs k v) k = some v := by
  induction cs with
  | nil => simp [setChild, lookupChild]
  | cons p rest ih =>
      obtain ⟨k', w⟩ := p
      by_cases h : k' = k
      · simp [setChild, lookupChild, h]
      · simp [setChild, lookupChild, h, ih]

theorem lookupChild_setChild_ne (cs : List (GoStr × TrieNode Freq)) (k k' : GoStr)
    (v : TrieNode Freq) (h : k' ≠ k) :
    lookupChild (setChild cs k v) k' = lookupChild cs k' := by
  have hne : ¬ k = k' := fun hh => h hh.symm
  induction cs with
  | nil => simp [setChild, lookupChild, hne]
  | cons p rest ih =>
      obtain ⟨k0, w⟩ := p
      by_cases h0 : k0 = k
      · subst h0
        simp [setChild, lookupChild, hne]
      · by_cases h1 : k0 = k'
        · subst h1
          simp [setChild, lookupChild, h0, h]
        · simp [setChild, lookupChild, h0, h1, ih]

theorem lookupChild_mem (cs : List (GoStr × TrieNode Freq)) (k : GoStr)
    (v : TrieNode Freq) (h : lookupChild cs k = some v) : (k, v) ∈ cs := by
  induction cs with
  | nil => simp [lookupChild] at h
  | cons p rest ih =>
      obtain ⟨k0, w⟩ := p
      by_cases h0 : k0 = k
      · subst h0
        simp [lookupChild] at h
        subst h
        exact List.mem_cons_self _ _
      · simp [lookupChild, h0] at h
        exact List.mem_cons_of_mem _ (ih h)

theorem mem_setChild (cs : List (GoStr × TrieNode Freq)) (k : GoStr)
    (v : TrieNode Freq) (q : GoStr × TrieNode Freq) (h : q ∈ setChild cs k v) :
    q = (k, v) ∨ q ∈ cs := by
  induction cs with
  | nil => simpa [setChild] using h
  | cons p rest ih =>
      obtain ⟨k0, w⟩ := p
      by_cases h0 : k0 = k
      · subst h0
        rcases (List.mem_cons).mp (by simpa [setChild] using h) with h1 | h1
        · exact Or.inl h1
        · exact Or.inr (List.mem_cons_of_mem _ h1)
      · rcases (List.mem_cons).mp (by simpa [setChild, h0] using h) with h1 | h1
        · exact Or.inr (h1 ▸ List.mem_cons_self _ _)
        · rcases ih h1 with h2 | h2
          · exact Or.inl h2
          · exact Or.inr (List.mem_cons_of_mem _ h2)

theorem endAt_new (p : List GoStr) : endAt (NewTrieNode : TrieNode Freq) p = false := by
  cases p <;> rfl

theorem entryAt_new (p : List GoStr) :
    entryAt (NewTrieNode : TrieNode Freq) p = none := by
  cases p <;> rfl

theorem endAt_insertPath_self (t : TrieNode Freq) (p : List GoStr) (E : DictEntry Freq) :
    endAt (insertPath t p E) p = true := by
  induction p generalizing t with
  | nil => cases t <;> rfl
  | cons k ks ih =>
      show endAt (.mk (setChild t.Children k
        (insertPath ((lookupChild t.Children k).getD NewTrieNode) ks E))
        t.IsEnd t.Entry) (k :: ks) = true
      simp only [endAt, findNode, TrieNode.Children_mk, lookupChild_setChild_self]
      exact ih _

theorem entryAt_insertPath_self (t : TrieNode Freq) (p : List GoStr)
    (E : DictEntry Freq) : entryAt (insertPath t p E) p = some E := by
  induction p generalizing t with
  | nil => cases t <;> rfl
  | cons k ks ih =>
      show entryAt (.mk (setChild t.Children k
        (insertPath ((lookupChild t.Children k).getD NewTrieNode) ks E))
        t.IsEnd t.Entry) (k :: ks) = some E
      simp only [entryAt, findNode, TrieNode.Children_mk, lookupChild_setChild_self]
      exact ih _

theorem endAt_insertPath_ne (t : TrieNode Freq) (p q : List GoStr)
    (E : DictEntry Freq) (h : q ≠ p) : endAt (insertPath t p E) q = endAt t q := by
  induction p generalizing t q with
  | nil =>
      cases q with
      | nil => exact absurd rfl h
      | cons k ks =>
          show endAt (.mk t.Children true (some E)) (k :: ks) = endAt t (k :: ks)
          cases t with
          | mk cs e en => simp only [endAt, findNode, TrieNode.Children_mk]
  | cons k kt ih =>
      cases q with
      | nil =>
          show endAt (.mk (setChild t.Children k
            (insertPath ((lookupChild t.Children k).getD NewTrieNode) kt E))
            t.IsEnd t.Entry) [] = endAt t []
          cases t with
          | mk cs e en => rfl
      | cons k' kt' =>
          show endAt (.mk (setChild t.Children k
            (insertPath ((lookupChild t.Children k).getD NewTrieNode) kt E))
            t.IsEnd t.Entry) (k' :: kt') = endAt t (k' :: kt')
          by_cases hk : k' = k
          · subst hk
            have hne : kt' ≠ kt := fun hh => h (by rw [hh])
            simp only [endAt, findNode, TrieNode.Children_mk,
              lookupChild_setChild_self]
            cases hc : lookupChild t.Children k' with
            | none =>
                have hh := (ih NewTrieNode kt' hne).trans (endAt_new kt')
                simp only [hc, Option.getD_none]
                rw [show (match findNode (insertPath NewTrieNode kt E) kt' with
                  | none => false | some n => n.IsEnd) =
                  endAt (insertPath NewTrieNode kt E) kt' from rfl, hh]
            | some c =>
                simp only [hc, Option.getD_some]
                rw [show (match findNode (insertPath c kt E) kt' with
                  | none => false | some n => n.IsEnd) =
                  endAt (insertPath c kt E) kt' from rfl, ih c kt' hne,
                  endAt]
          · simp only [endAt, findNode, TrieNode.Children_mk,
              lookupChild_setChild_ne _ _ _ _ hk]

theorem entryAt_insertPath_ne (t : TrieNode Freq) (p q : List GoStr)
    (E : DictEntry Freq) (h : q ≠ p) : entryAt (insertPath t p E) q = entryAt t q := by
  induction p generalizing t q with
  | nil =>
      cases q with
      | nil => exact absurd rfl h
      | cons k ks =>
          show entryAt (.mk t.Children true (some E)) (k :: ks) = entryAt t (k :: ks)
          cases t with
          | mk cs e en => simp only [entryAt, findNode, TrieNode.Children_mk]
  | cons k kt ih =>
      cases q with
      | nil =>
          show entryAt (.mk (setChild t.Children k
            (insertPath ((lookupChild t.Children k).getD NewTrieNode) kt E))
            t.IsEnd t.Entry) [] = entryAt t []
          cases t with
          | mk cs e en => rfl
      | cons k' kt' =>
          show entryAt (.mk (setChild t.Children k
            (insertPath ((lookupChild t.Children k).getD NewTrieNode) kt E))
            t.IsEnd t.Entry) (k' :: kt') = entryAt t (k' :: kt')
          by_cases hk : k' = k
          · subst hk
            have hne : kt' ≠ kt := fun hh => h (by rw [hh])
            simp only [entryAt, findNode, TrieNode.Children_mk,
              lookupChild_setChild_self]
            cases hc : lookupChild t.Children k' with
            | none =>
                have hh := (ih NewTrieNode kt' hne).trans (entryAt_new kt')
                simp only [hc, Option.getD_none]
                rw [show (match findNode (insertPath NewTrieNode kt E) kt' with
                  | none => none | some n => n.Entry) =
                  entryAt (insertPath NewTrieNode kt E) kt' from rfl, hh]
            | some c =>
                simp only [hc, Option.getD_some]
                rw [show (match findNode (insertPath c kt E) kt' with
                  | none => none | some n => n.Entry) =
                  entryAt (insertPath c kt E) kt' from rfl, ih c kt' hne,
                  entryAt]
          · simp only [entryAt, findNode, TrieNode.Children_mk,
              lookupChild_setChild_ne _ _ _ _ hk]

theorem SplitString_inj {a b : GoStr} (h : SplitString a = SplitString b) : a = b :=
  List.map_injective_iff.mpr (fun x y hxy => by simpa using hxy) h

theorem endAt_insertTrie_ne (t : TrieNode Freq) (k c : GoStr) (E : DictEntry Freq)
    (h : c ≠ k) : endAt (insertTrie t k E) (SplitString c) = endAt t (SplitString c) :=
  endAt_insertPath_ne t (SplitString k) (SplitString c) E
    (fun hh => h (SplitString_inj hh))

theorem entryAt_insertTrie_ne (t : TrieNode Freq) (k c : GoStr) (E : DictEntry Freq)
    (h : c ≠ k) :
    entryAt (insertTrie t k E) (SplitString c) = entryAt t (SplitString c) :=
  entryAt_insertPath_ne t (SplitString k) (SplitString c) E
    (fun hh => h (SplitString_inj hh))

/-! Lemmas about rebuilding the trie from the store. -/

theorem load_notMem_endAt (ws : Store Freq) (t : TrieNode Freq) (c : GoStr)
    (h : c ∉ ws.map Prod.fst) :
    endAt (loadDictionaryFromDB ws t) (SplitString c) = endAt t (SplitString c) := by
  induction ws generalizing t with
  | nil => rfl
  | cons p rest ih =>
      obtain ⟨k, E⟩ := p
      simp only [List.map_cons, List.mem_cons, not_or] at h
      exact (ih (insertTrie t k E) h.2).trans (endAt_insertTrie_ne t k c E h.1)

theorem load_notMem_entryAt (ws : Store Freq) (t : TrieNode Freq) (c : GoStr)
    (h : c ∉ ws.map Prod.fst) :
    entryAt (loadDictionaryFromDB ws t) (SplitString c) =
      entryAt t (SplitString c) := by
  induction ws generalizing t with
  | nil => rfl
  | cons p rest ih =>
      obtain ⟨k, E⟩ := p
      simp only [List.map_cons, List.mem_cons, not_or] at h
      exact (ih (insertTrie t k E) h.2).trans (entryAt_insertTrie_ne t k c E h.1)

theorem load_mem_endAt (ws : Store Freq) (t : TrieNode Freq) (c : GoStr)
    (h : c ∈ ws.map Prod.fst) :
    endAt (loadDictionaryFromDB ws t) (SplitString c) = true := by
  induction ws generalizing t with
  | nil => simp at h
  | cons p rest ih =>
      obtain ⟨k, E⟩ := p
      by_cases hr : c ∈ rest.map Prod.fst
      · exact ih (insertTrie t k E) hr
      · have hk : c = k := by
          simp only [List.map_cons, List.mem_cons] at h
          exact h.resolve_right hr
        subst hk
        exact (load_notMem_endAt rest (insertTrie t c E) c hr).trans
          (endAt_insertPath_self t (SplitString c) E)

theorem load_entryAt_unique (ws : Store Freq) (t : TrieNode Freq) (c : GoStr)
    (E : DictEntry Freq) (hmem : c ∈ ws.map Prod.fst)
    (hval : ∀ p ∈ ws, p.1 = c → p.2 = E) :
    entryAt (loadDictionaryFromDB ws t) (SplitString c) = some E := by
  induction ws generalizing t with
  | nil => simp at hmem
  | cons p rest ih =>
      obtain ⟨k, E'⟩ := p
      by_cases hr : c ∈ rest.map Prod.fst
      · exact ih (insertTrie t k E') hr
          (fun q hq hqc => hval q (List.mem_cons_of_mem _ hq) hqc)
      · have hk : c = k := by
          simp only [List.map_cons, List.mem_cons] at hmem
          exact hmem.resolve_right hr
        subst hk
        have hE : E' = E := hval (c, E') (List.mem_cons_self _ _) rfl
        subst hE
        exact (load_notMem_entryAt rest (insertTrie t c E') c hr).trans
          (entryAt_insertPath_self t (SplitString c) E')

/-! Lemmas about the store update. -/

theorem mem_keys_storeSet (s : Store Freq) (key : GoStr) (v : DictEntry Freq) :
    key ∈ (storeSet s key v).map Prod.fst := by
  unfold storeSet
  split
  · rename_i hmem
    obtain ⟨p, hp, hfst⟩ := List.mem_map.mp hmem
    refine List.mem_map.mpr ⟨(key, v), List.mem_map.mpr ⟨p, hp, ?_⟩, rfl⟩
    simp [hfst]
  · exact List.mem_map.mpr
      ⟨(key, v), List.mem_append_right _ (List.mem_singleton.mpr rfl), rfl⟩

theorem storeSet_at_key (s : Store Freq) (key : GoStr) (v : DictEntry Freq) :
    ∀ p ∈ storeSet s key v, p.1 = key → p.2 = v := by
  intro p hp hk
  unfold storeSet at hp
  split at hp
  · obtain ⟨q, hq, hgq⟩ := List.mem_map.mp hp
    by_cases h : q.1 = key
    · rw [if_pos h] at hgq
      rw [← hgq]
    · rw [if_neg h] at hgq
      exact absurd (hgq ▸ hk) h
  · rename_i hnot
    rcases List.mem_append.mp hp with h | h
    · exact absurd (List.mem_map.mpr ⟨p, h, hk⟩) hnot
    · simp only [List.mem_singleton] at h
      rw [h]

/-! Preservation of the root's terminal flag. -/

theorem IsEnd_insertTrie_of_ne_nil (t : TrieNode Freq) (c : GoStr)
    (E : DictEntry Freq) (h : c ≠ []) : (insertTrie t c E).IsEnd = t.IsEnd := by
  cases c with
  | nil => exact absurd rfl h
  | cons a as => rfl

theorem IsEnd_load_of_ne_nil (ws : Store Freq) (t : TrieNode Freq)
    (h : ∀ p ∈ ws, p.1 ≠ ([] : GoStr)) :
    (loadDictionaryFromDB ws t).IsEnd = t.IsEnd := by
  induction ws generalizing t with
  | nil => rfl
  | cons p rest ih =>
      obtain ⟨k, E⟩ := p
      exact (ih (insertTrie t k E)
        (fun q hq => h q (List.mem_cons_of_mem _ hq))).trans
        (IsEnd_insertTrie_of_ne_nil t k E (h (k, E) (List.mem_cons_self _ _)))

theorem containsWord_nil (t : TrieNode Freq) : containsWord t [] = t.IsEnd := rfl

/-! Preservation of the node invariant. -/

theorem TrieInv_new : TrieInv (NewTrieNode : TrieNode Freq) :=
  TrieInv.mk [] false none (by simp) (by simp)

theorem TrieInv_insertPath (t : TrieNode Freq) (p : List GoStr) (E : DictEntry Freq)
    (h : TrieInv t) : TrieInv (insertPath t p E) := by
  induction p generalizing t with
  | nil =>
      cases h with
      | mk cs e en hiff hch => exact TrieInv.mk cs true (some E) (by simp) hch
  | cons k ks ih =>
      cases h with
      | mk cs e en hiff hch =>
        refine TrieInv.mk (setChild cs k
          (insertPath ((lookupChild cs k).getD NewTrieNode) ks E)) e en hiff ?_
        intro q hq
        rcases mem_setChild _ _ _ _ hq with hq' | hq'
        · rw [hq']
          refine ih _ ?_
          cases hc : lookupChild cs k with
          | none => exact TrieInv_new
          | some c0 => exact hch (k, c0) (lookupChild_mem cs k c0 hc)
        · exact hch q hq'

theorem TrieInv_insertTrie (t : TrieNode Freq) (c : GoStr) (E : DictEntry Freq)
    (h : TrieInv t) : TrieInv (insertTrie t c E) :=
  TrieInv_insertPath t (SplitString c) E h

theorem TrieInv_load (ws : Store Freq) (t : TrieNode Freq) (h : TrieInv t) :
    TrieInv (loadDictionaryFromDB ws t) := by
  induction ws generalizing t with
  | nil => exact h
  | cons p rest ih => exact ih (insertTrie t p.1 p.2) (TrieInv_insertTrie t p.1 p.2 h)

/-! Lemmas about the lifecycle state machine. -/

theorem closeHandled_run_of_noClose (evs : List Event) (s : EngineState)
    (h : ∀ ev ∈ evs, isCloseEv ev = false) :
    (run s evs).1.closeHandled = s.closeHandled := by
  induction evs generalizing s with
  | nil => rfl
  | cons e es ih =>
      have h2 : ∀ ev ∈ es, isCloseEv ev = false :=
        fun ev hev => h ev (List.mem_cons_of_mem _ hev)
      show (run (step s e).1 es).1.closeHandled = s.closeHandled
      rw [ih (step s e).1 h2]
      cases e with
      | tickFire => cases hs : s.ticker <;> simp [step, hs]
      | setGCInterval d => by_cases hd : d ≤ 0 <;> simp [step, hd]
      | closeReq e0 => simpa [isCloseEv] using h _ (List.mem_cons_self _ _)

theorem run_tickerNone_noGc (evs : List Event) (s : EngineState)
    (hs : s.ticker = none) (h : ∀ ev ∈ evs, isPosSet ev = false) :
    (run s evs).1.ticker = none ∧
      (run s evs).2.all (fun o => !isGcRun o) = true := by
  induction evs generalizing s with
  | nil => exact ⟨hs, rfl⟩
  | cons e es ih =>
      have h2 : ∀ ev ∈ es, isPosSet ev = false :=
        fun ev hev => h ev (List.mem_cons_of_mem _ hev)
      have hstep : (step s e).1.ticker = none ∧
          (step s e).2.all (fun o => !isGcRun o) = true := by
        cases e with
        | tickFire => simp [step, hs]
        | setGCInterval d =>
            have hd : d ≤ 0 := Int.not_lt.mp (by
              simpa [isPosSet] using h _ (List.mem_cons_self _ _))
            simp [step, hs, hd]
        | closeReq e0 =>
            by_cases hc : s.closeHandled <;> simp [step, hc, hs, isGcRun]
      have hrest := ih (step s e).1 hstep.1 h2
      refine ⟨hrest.1, ?_⟩
      show ((step s e).2 ++ (run (step s e).1 es).2).all (fun o => !isGcRun o) = true
      rw [List.all_append, hstep.2, hrest.2]
      rfl

/-! The claims. -/

/-- C1: for every valid (non-empty) content, frequency and tag, `AddWord`
followed by rebuilding a fresh trie from the storage contents (a fresh
bootstrap, as `loadDictionaryFromDB` does) yields `containsWord content =
true`, and the entry stored at the terminal node equals the `DictEntry`
built from the added content, frequency and tag. -/
theorem C1_addWord_bootstrap_roundtrip {Freq : Type} (d : PEngine Freq)
    (content : GoStr) (frequency : Freq) (pos : GoStr) (_hval : content ≠ []) :
    containsWord (bootstrapTrie (AddWord d content frequency pos none).1.store)
        content = true ∧
    entryAt (bootstrapTrie (AddWord d content frequency pos none).1.store)
        (SplitString content) = some ⟨content, frequency, pos⟩ := by
  have hstore : (AddWord d content frequency pos none).1.store =
      storeSet d.store content ⟨content, frequency, pos⟩ := rfl
  rw [hstore]
  constructor
  · rw [containsWord_eq_endAt]
    exact load_mem_endAt _ NewTrieNode content
      (mem_keys_storeSet d.store content ⟨content, frequency, pos⟩)
  · exact load_entryAt_unique _ NewTrieNode content ⟨content, frequency, pos⟩
      (mem_keys_storeSet d.store content ⟨content, frequency, pos⟩)
      (storeSet_at_key d.store content ⟨content, frequency, pos⟩)

theorem C1_addWord_bootstrap_roundtrip_witness :
    (['a', 'b'] : GoStr) ≠ [] ∧
    (containsWord (bootstrapTrie
        (AddWord (⟨NewTrieNode, [], []⟩ : PEngine Int) ['a', 'b'] 5 ['n'] none).1.store)
        ['a', 'b'] = true ∧
      entryAt (bootstrapTrie
        (AddWord (⟨NewTrieNode, [], []⟩ : PEngine Int) ['a', 'b'] 5 ['n'] none).1.store)
        (SplitString ['a', 'b']) = some ⟨['a', 'b'], 5, ['n']⟩) :=
  ⟨by decide,
   C1_addWord_bootstrap_roundtrip ⟨NewTrieNode, [], []⟩ ['a', 'b'] 5 ['n'] (by decide)⟩

/-- C2 counterexample: the claim as stated is false. After the shutdown
request is acknowledged, the maintenance loop has not exited, so a later
`SetGCInterval` call restarts the ticker and the next firing invokes
`RunValueLogGC` (on the cleared handle): a maintenance tick after the
acknowledgement, at this concrete trace. -/
theorem C2_counterexample :
    noGcAfterAck (run initEngine
      [Event.closeReq none, Event.setGCInterval 1, Event.tickFire]).2 = false ∧
    (run initEngine [Event.closeReq none, Event.setGCInterval 1,
      Event.tickFire]).2 = [Obs.ack, Obs.gcRun false] := by decide

/-- C2 amended: once the first shutdown request is handled, the timer is
stopped and the handle cleared before the acknowledgement is sent, and no
further `RunValueLogGC` invocation occurs as long as no subsequent
`SetGCInterval` call with a positive duration is made; the maintenance loop
itself does not exit, and such a call restarts the ticker, after which
maintenance ticks occur again. -/
theorem C2_no_gc_after_close_without_update (pre post : List Event)
    (e : Option GoStr)
    (hpre : ∀ ev ∈ pre, isCloseEv ev = false)
    (hpost : ∀ ev ∈ post, isPosSet ev = false) :
    (step (run initEngine pre).1 (.closeReq e)).1.ticker = none ∧
    (step (run initEngine pre).1 (.closeReq e)).1.dbOpen = false ∧
    (step (run initEngine pre).1 (.closeReq e)).2 = [Obs.ack] ∧
    (run (step (run initEngine pre).1 (.closeReq e)).1 post).2.all
      (fun o => !isGcRun o) = true := by
  have hch : (run initEngine pre).1.closeHandled = false :=
    (closeHandled_run_of_noClose pre initEngine hpre).trans rfl
  have h1 : (step (run initEngine pre).1 (.closeReq e)).1.ticker = none := by
    simp [step, hch]
  refine ⟨h1, by simp [step, hch], by simp [step, hch],
    (run_tickerNone_noGc post _ h1 hpost).2⟩

theorem C2_no_gc_after_close_without_update_witness :
    (∀ ev ∈ ([] : List Event), isCloseEv ev = false) ∧
    (∀ ev ∈ [Event.tickFire, Event.setGCInterval 0], isPosSet ev = false) ∧
    ((step (run initEngine []).1 (.closeReq none)).1.ticker = none ∧
     (step (run initEngine []).1 (.closeReq none)).1.dbOpen = false ∧
     (step (run initEngine []).1 (.closeReq none)).2 = [Obs.ack] ∧
     (run (step (run initEngine []).1 (.closeReq none)).1
       [Event.tickFire, Event.setGCInterval 0]).2.all
       (fun o => !isGcRun o) = true) :=
  ⟨by decide, by decide,
   C2_no_gc_after_close_without_update [] [Event.tickFire, Event.setGCInterval 0]
     none (by decide) (by decide)⟩

/-- C3 (code defect): `LearnFromText` filters with the Go byte length
`len(content) <= 1`, not the codepoint count, so the single-codepoint token
我 (three UTF-8 bytes) passes the length filter, is not special, and
`AddWord` is called for it on a fresh dictionary — while a single-byte
token such as `a` is filtered. This contradicts the claim, the code's own
comment, and the spec's scenario. -/
theorem C3_single_codepoint_added :
    goLen ['我'] = 3 ∧
    learnAddCalls asciiPSZ (1000 : Int) NewTrieNode [['我']] = [['我']] ∧
    learnAddCalls asciiPSZ (1000 : Int) NewTrieNode [['a']] = [] := by decide

/-- C4 (code defect): `IsSpecialChar` applies the P/S/Z character-class
regex with `MatchString`, which is unanchored, so the mixed token `a,b` —
which contains the word characters `a` and `b` — is classified as special
and filtered as noise by `LearnFromText`, while the claim (and the code's
own comment) reject only tokens consisting entirely of P/S/Z characters. A
pure punctuation token is still filtered, as the claim states. -/
theorem C4_mixed_token_rejected :
    isSpecialChar asciiPSZ ['a', ',', 'b'] = true ∧
    asciiPSZ 'a' = false ∧ asciiPSZ 'b' = false ∧ asciiPSZ ',' = true ∧
    isSpecialChar asciiPSZ [',', '!'] = true ∧
    learnAddCalls asciiPSZ (1000 : Int) NewTrieNode [['a', ',', 'b']] = [] := by
  decide

/-- C5: `containsWord` returns true iff walking the codepoint decomposition
from the root reaches a terminal node (so false whenever an intermediate
child is missing), and on a trie bootstrapped from a store it returns false
on a strict prefix of a stored word when the prefix itself is not a stored
word. -/
theorem C5_contains_characterization {Freq : Type} :
    (∀ (t : TrieNode Freq) (c : GoStr),
      containsWord t c = true ↔
        ∃ n, findNode t (SplitString c) = some n ∧ n.IsEnd = true) ∧
    (∀ (ws : Store Freq) (p w rest : GoStr), w ∈ ws.map Prod.fst →
      w = p ++ rest → rest ≠ [] → p ∉ ws.map Prod.fst →
      containsWord (bootstrapTrie ws) p = false) := by
  constructor
  · intro t c
    rw [containsWord_eq_endAt]
    unfold endAt
    cases h : findNode t (SplitString c) with
    | none => simp
    | some n => simp
  · intro ws p w rest hw hsplit hne hnotin
    rw [containsWord_eq_endAt]
    exact (load_notMem_endAt ws NewTrieNode p hnotin).trans (endAt_new _)

theorem C5_contains_characterization_witness :
    (containsWord (bootstrapTrie [((['a', 'b'] : GoStr),
        (⟨['a', 'b'], 5, ['n']⟩ : DictEntry Int))]) ['a', 'b'] = true ↔
      ∃ n, findNode (bootstrapTrie [((['a', 'b'] : GoStr),
        (⟨['a', 'b'], 5, ['n']⟩ : DictEntry Int))]) (SplitString ['a', 'b']) =
        some n ∧ n.IsEnd = true) ∧
    ((['a', 'b'] : GoStr) ∈ ([(['a', 'b'],
        (⟨['a', 'b'], 5, ['n']⟩ : DictEntry Int))] : Store Int).map Prod.fst) ∧
    containsWord (bootstrapTrie ([(['a', 'b'],
      (⟨['a', 'b'], 5, ['n']⟩ : DictEntry Int))] : Store Int)) ['a'] = false :=
  ⟨C5_contains_characterization.1 _ ['a', 'b'], by decide,
   C5_contains_characterization.2 _ ['a'] ['a', 'b'] ['b'] (by decide) (by decide)
     (by decide) (by decide)⟩

/-- C6: `Close()` sends exactly one shutdown request, acknowledged exactly
once by `listenerClose`; on acknowledgement it returns the error captured
while closing the underlying storage handle (`none` if the close was
clean), and on the five-second timeout it returns the dedicated timeout
error, never `none`. -/
theorem C6_close_result (e : Option GoStr) :
    (step initEngine (.closeReq e)).2 = [Obs.ack] ∧
    CloseResult initEngine e true = e ∧
    CloseResult initEngine e false = some closeTimeoutMsg ∧
    CloseResult initEngine e false ≠ none := by
  refine ⟨by simp [step, initEngine], ?_, rfl, by simp [CloseResult]⟩
  cases e with
  | none => rfl
  | some m => rfl

/-- C7: when the store write fails, `AddWord` returns the wrapped error,
yet the trie has already been mutated: it contains the new content, whose
terminal node holds the new entry, while the store and the tokenizer are
unchanged and the store still does not hold the new entry — the in-memory
state is ahead of the durable state. -/
theorem C7_addWord_failure {Freq : Type} (d : PEngine Freq) (content : GoStr)
    (frequency : Freq) (pos : GoStr) (e : GoStr)
    (hmiss : storeGet d.store content ≠ some ⟨content, frequency, pos⟩) :
    (AddWord d content frequency pos (some e)).2 = some (wrapAddWordErr e) ∧
    containsWord (AddWord d content frequency pos (some e)).1.root content = true ∧
    entryAt (AddWord d content frequency pos (some e)).1.root
      (SplitString content) = some ⟨content, frequency, pos⟩ ∧
    (AddWord d content frequency pos (some e)).1.store = d.store ∧
    (AddWord d content frequency pos (some e)).1.seg = d.seg ∧
    storeGet (AddWord d content frequency pos (some e)).1.store content ≠
      some ⟨content, frequency, pos⟩ := by
  refine ⟨rfl, ?_, ?_, rfl, rfl, hmiss⟩
  · rw [show (AddWord d content frequency pos (some e)).1.root =
      insertTrie d.root content ⟨content, frequency, pos⟩ from rfl,
      containsWord_eq_endAt]
    exact endAt_insertPath_self _ _ _
  · rw [show (AddWord d content frequency pos (some e)).1.root =
      insertTrie d.root content ⟨content, frequency, pos⟩ from rfl]
    exact entryAt_insertPath_self _ _ _

theorem C7_addWord_failure_witness :
    storeGet ([] : Store Int) ['a'] ≠ some ⟨['a'], 7, ['n']⟩ ∧
    ((AddWord (⟨NewTrieNode, [], []⟩ : PEngine Int) ['a'] 7 ['n'] (some ['x'])).2 =
        some (wrapAddWordErr ['x']) ∧
      containsWord (AddWord (⟨NewTrieNode, [], []⟩ : PEngine Int) ['a'] 7 ['n']
        (some ['x'])).1.root ['a'] = true ∧
      entryAt (AddWord (⟨NewTrieNode, [], []⟩ : PEngine Int) ['a'] 7 ['n']
        (some ['x'])).1.root (SplitString ['a']) = some ⟨['a'], 7, ['n']⟩ ∧
      (AddWord (⟨NewTrieNode, [], []⟩ : PEngine Int) ['a'] 7 ['n']
        (some ['x'])).1.store = (⟨NewTrieNode, [], []⟩ : PEngine Int).store ∧
      (AddWord (⟨NewTrieNode, [], []⟩ : PEngine Int) ['a'] 7 ['n']
        (some ['x'])).1.seg = (⟨NewTrieNode, [], []⟩ : PEngine Int).seg ∧
      storeGet (AddWord (⟨NewTrieNode, [], []⟩ : PEngine Int) ['a'] 7 ['n']
        (some ['x'])).1.store ['a'] ≠ some ⟨['a'], 7, ['n']⟩) :=
  ⟨by decide,
   C7_addWord_failure ⟨NewTrieNode, [], []⟩ ['a'] 7 ['n'] ['x'] (by decide)⟩

/-- C8: `SetGCInterval` with a non-positive duration is a silent no-op: the
state is unchanged and nothing is observed; with a positive duration it
stores the new interval and replaces the running ticker with a fresh one at
that interval, resetting the countdown, and the update itself invokes no
maintenance pass. -/
theorem C8_setGCInterval (s : EngineState) (d : Int) :
    (d ≤ 0 → step s (.setGCInterval d) = (s, [])) ∧
    (0 < d → step s (.setGCInterval d) =
      ({ s with gcInterval := d, ticker := some d }, [])) := by
  constructor
  · intro h
    simp [step, h]
  · intro h
    simp [step, Int.not_le.mpr h]

theorem C8_setGCInterval_witness :
    ((-3 : Int) ≤ 0 ∧ step initEngine (.setGCInterval (-3)) = (initEngine, [])) ∧
    ((0 : Int) < 7 ∧ step initEngine (.setGCInterval 7) =
      ({ initEngine with gcInterval := 7, ticker := some 7 }, [])) :=
  ⟨⟨by decide, (C8_setGCInterval initEngine (-3)).1 (by decide)⟩,
   ⟨by decide, (C8_setGCInterval initEngine 7).2 (by decide)⟩⟩

/-- C9: every node of the fresh sentinel root satisfies the invariant
`IsEnd = true` iff `Entry ≠ none`, and the invariant is preserved by the
trie-insertion loop (as run by `insertIntoTrieAndDB`) and by bootstrap
loading from storage; hence every trie reachable from a fresh root by any
sequence of these insert operations satisfies it at every node. -/
theorem C9_trie_invariant {Freq : Type} :
    TrieInv (NewTrieNode : TrieNode Freq) ∧
    (∀ (t : TrieNode Freq) (c : GoStr) (E : DictEntry Freq),
      TrieInv t → TrieInv (insertTrie t c E)) ∧
    (∀ (ws : Store Freq) (t : TrieNode Freq),
      TrieInv t → TrieInv (loadDictionaryFromDB ws t)) ∧
    (∀ ws : Store Freq, TrieInv (bootstrapTrie ws)) :=
  ⟨TrieInv_new, TrieInv_insertTrie, TrieInv_load,
   fun ws => TrieInv_load ws NewTrieNode TrieInv_new⟩

theorem C9_trie_invariant_witness :
    TrieInv (insertTrie (NewTrieNode : TrieNode Int) ['a'] ⟨['a'], 5, ['n']⟩) :=
  C9_trie_invariant.2.1 NewTrieNode ['a'] ⟨['a'], 5, ['n']⟩ C9_trie_invariant.1

/-- C10: when every stored content is non-empty, the sentinel root of a
bootstrapped trie is not terminal and `containsWord` on the empty string is
false; inserting the empty string as a content marks the sentinel root
itself terminal, after which `containsWord` on the empty string is true. -/
theorem C10_empty_content {Freq : Type} :
    (∀ ws : Store Freq, (∀ p ∈ ws, p.1 ≠ ([] : GoStr)) →
      (bootstrapTrie ws).IsEnd = false ∧
      containsWord (bootstrapTrie ws) [] = false) ∧
    (∀ (t : TrieNode Freq) (E : DictEntry Freq),
      insertTrie t [] E = TrieNode.mk t.Children true (some E) ∧
      containsWord (insertTrie t [] E) [] = true) := by
  constructor
  · intro ws h
    have h1 : (bootstrapTrie ws).IsEnd = false := by
      unfold bootstrapTrie
      rw [IsEnd_load_of_ne_nil ws NewTrieNode h]
      rfl
    exact ⟨h1, by rw [containsWord_nil, h1]⟩
  · intro t E
    exact ⟨rfl, rfl⟩

theorem C10_empty_content_witness :
    (∀ p ∈ ([(['a'], ⟨['a'], 5, ['n']⟩)] : Store Int), p.1 ≠ ([] : GoStr)) ∧
    ((bootstrapTrie ([(['a'], ⟨['a'], 5, ['n']⟩)] : Store Int)).IsEnd = false ∧
      containsWord (bootstrapTrie ([(['a'], ⟨['a'], 5, ['n']⟩)] : Store Int)) [] =
        false) :=
  ⟨by decide, C10_empty_content.1 [(['a'], ⟨['a'], 5, ['n']⟩)] (by decide)⟩

end Nla
